import Mathlib

/-!
Verification of the Process-Scheduling-Simulator repository
(`scheduling_simulator.c`, `simulator.h`).

The embedding below translates the scheduling core of the C program into
executable Lean definitions:

* `Process` / `GanttEntry` mirror the structs of `simulator.h` (the decorative
  `memory_block` pointer carries no scheduling semantics and is omitted;
  `completion_time`, `waiting_time` and `turnaround_time` are left
  uninitialized by `add_process` in C and are modelled as `0`, which is also
  the value `reset_process_state` establishes).
* `add_process` mirrors the validation and registration logic of
  `add_process` in the C file (the `scanf` calls deliver the three integers).
* `run_sjf_preemptive` / `run_priority_preemptive` mirror the two unit-step
  preemptive loops; they share one loop body `p_body` parameterised by the
  selection key, since the two C functions are textually identical except for
  the scanned field (`remaining_time` vs `priority`).
* `run_round_robin` mirrors the Round-Robin loop including its circular
  ready-queue of capacity `MAX_PROCESSES`, the `in_queue` flag array indexed
  by pid, and the `front`/`rear` cursors with the `-1` sentinel.
* C `while` loops are modelled with explicit fuel; `none` means the fuel ran
  out (or an input-validation early return fired before the loop started).
* All machine integers are modelled as `Int` (no arithmetic here approaches
  32-bit overflow on the inputs the claims quantify over).
-/

/-- Mirrors `MAX_PROCESSES` from `simulator.h`. -/
def MAX_PROCESSES : Nat := 100

/-- Mirrors `struct Process` from `simulator.h` (without the decorative
`memory_block` pointer). -/
structure Process where
  pid : Int
  arrival_time : Int
  burst_time : Int
  priority : Int
  remaining_time : Int
  completion_time : Int
  waiting_time : Int
  turnaround_time : Int
  is_completed : Bool
deriving Repr, DecidableEq, Inhabited

/-- Mirrors `struct GanttEntry` from `simulator.h`. -/
structure GanttEntry where
  pid : Int
  start_time : Int
  end_time : Int
deriving Repr, DecidableEq, Inhabited

/-- The global registry state: the `processes` array together with
`process_count` (the list length) and `next_pid`. -/
structure Registry where
  processes : List Process
  next_pid : Int
deriving Repr, DecidableEq

/-- Mirrors `add_process`: validates capacity, then arrival, burst and
priority in order; on failure the registry is returned unchanged together
with `false`, on success the new process (pid = `next_pid`,
`remaining_time = burst`, `is_completed = false`) is appended and
`next_pid` is incremented.  The C code leaves `completion_time`,
`waiting_time` and `turnaround_time` uninitialized; they are modelled as 0
(the value `reset_process_state` writes). -/
def add_process (r : Registry) (arrival burst priority : Int) : Registry × Bool :=
  if MAX_PROCESSES ≤ r.processes.length then (r, false)
  else if arrival < 0 then (r, false)
  else if burst ≤ 0 then (r, false)
  else if priority < 0 then (r, false)
  else ({ processes := r.processes ++
            [⟨r.next_pid, arrival, burst, priority, burst, 0, 0, 0, false⟩]
          next_pid := r.next_pid + 1 }, true)

/-- Mirrors `copy_processes`: deep copy with `remaining_time` reset to
`burst_time` and `is_completed` reset to `false`. -/
def copy_processes (l : List Process) : List Process :=
  l.map (fun p => { p with remaining_time := p.burst_time, is_completed := false })

/-- Tail of one adjacent-swap bubble pass: `cur` is the element currently
being carried rightwards (the C inner loop `for j`: swap when
`procs[j].arrival_time > procs[j+1].arrival_time`). -/
def bubble_pass_go (cur : Process) : List Process → List Process
  | [] => [cur]
  | b :: rest =>
      if b.arrival_time < cur.arrival_time then b :: bubble_pass_go cur rest
      else cur :: bubble_pass_go b rest

/-- One full adjacent-swap pass of the bubble sort on `arrival_time`. -/
def bubble_pass : List Process → List Process
  | [] => []
  | a :: rest => bubble_pass_go a rest

/-- The bubble sort by `arrival_time` used by `run_round_robin` (and
`run_fcfs`).  The C outer loop performs `n-1` passes whose inner bound
shrinks; performing `n` full passes yields the identical list, since a pass
never moves elements of an already-sorted suffix. -/
def bubble_sort (l : List Process) : List Process :=
  (List.range l.length).foldl (fun acc _ => bubble_pass acc) l

/-- Overwrite the `end_time` of the last recorded gantt entry
(`gantt_chart[gantt_count-1].end_time = current_time`); identity on the
empty chart (the C code guards this write with `gantt_count > 0`, except
for the single unguarded write after the loop, which is only reached with
`gantt_count ≥ 1` because the loop runs at least one non-idle iteration). -/
def set_last_end : List GanttEntry → Int → List GanttEntry
  | [], _ => []
  | [e], t => [{ e with end_time := t }]
  | e :: f :: rest, t => e :: set_last_end (f :: rest) t

/-- Eligibility test used by both preemptive scan loops:
`procs[i].arrival_time <= current_time && !procs[i].is_completed`. -/
def elig (t : Int) (p : Process) : Prop :=
  p.arrival_time ≤ t ∧ p.is_completed = false

instance (t : Int) (p : Process) : Decidable (elig t p) := by
  unfold elig; infer_instance

/-- The linear scan of the preemptive loops: walk the process list left to
right keeping the first index attaining the running strict minimum of
`key` among eligible processes (`none` plays the role of the
`INT_MAX` / `idx = -1` initialisation). -/
def select_go (key : Process → Int) (t : Int) :
    List Process → Nat → Option (Nat × Int) → Option (Nat × Int)
  | [], _, acc => acc
  | p :: rest, i, acc =>
      select_go key t rest (i + 1)
        (if elig t p then
          match acc with
          | none => some (i, key p)
          | some (_, m) => if key p < m then some (i, key p) else acc
        else acc)

/-- Index (and key value) of the selected process, or `none` when no
process is eligible. -/
def select_idx (key : Process → Int) (procs : List Process) (t : Int) :
    Option (Nat × Int) :=
  select_go key t procs 0 none

/-- Loop state of the two preemptive simulations. -/
structure PState where
  procs : List Process
  gantt : List GanttEntry
  current_time : Int
  completed_count : Nat
  last_pid : Int
deriving Repr, DecidableEq

/-- One iteration of the preemptive `while (completed_count < process_count)`
body, shared by `run_sjf_preemptive` (key = `remaining_time`) and
`run_priority_preemptive` (key = `priority`): scan for the minimum-key
eligible process; if none, idle one tick; otherwise open a new gantt entry
when the pid changed (closing the previous one at the current clock),
execute one tick, and on completion record `completion_time` and force
`last_pid = -1`. -/
def p_body (key : Process → Int) (st : PState) : PState :=
  match select_idx key st.procs st.current_time with
  | none => { st with current_time := st.current_time + 1 }
  | some (idx, _) =>
      let p := st.procs.getD idx default
      let cpid := p.pid
      let gantt1 :=
        if st.last_pid ≠ cpid then
          set_last_end st.gantt st.current_time ++
            [⟨cpid, st.current_time, st.current_time⟩]
        else st.gantt
      let rem' := p.remaining_time - 1
      let t' := st.current_time + 1
      if rem' = 0 then
        { procs := st.procs.set idx
            { p with
              remaining_time := rem'
              is_completed := true
              completion_time := t' }
          gantt := gantt1
          current_time := t'
          completed_count := st.completed_count + 1
          last_pid := -1 }
      else
        { procs := st.procs.set idx { p with remaining_time := rem' }
          gantt := gantt1
          current_time := t'
          completed_count := st.completed_count
          last_pid := cpid }

/-- Fuelled preemptive loop (`while (completed_count < process_count)`). -/
def p_loop (key : Process → Int) (n : Nat) : Nat → PState → Option PState
  | 0, _ => none
  | fuel + 1, st =>
      if st.completed_count < n then p_loop key n fuel (p_body key st)
      else some st

/-- Shared driver of the two preemptive algorithms: empty-set early return,
working copy, loop, and the final
`gantt_chart[gantt_count-1].end_time = current_time` write. -/
def run_preemptive (key : Process → Int) (jobs : List Process) (fuel : Nat) :
    Option (List Process × List GanttEntry) :=
  if jobs.length = 0 then none
  else
    match p_loop key jobs.length fuel ⟨copy_processes jobs, [], 0, 0, -1⟩ with
    | none => none
    | some st => some (st.procs, set_last_end st.gantt st.current_time)

/-- Mirrors `run_sjf_preemptive` (selection key: `remaining_time`). -/
def run_sjf_preemptive (jobs : List Process) (fuel : Nat) :
    Option (List Process × List GanttEntry) :=
  run_preemptive (fun p => p.remaining_time) jobs fuel

/-- Mirrors `run_priority_preemptive` (selection key: `priority`). -/
def run_priority_preemptive (jobs : List Process) (fuel : Nat) :
    Option (List Process × List GanttEntry) :=
  run_preemptive (fun p => p.priority) jobs fuel

/-- Loop state of the Round-Robin simulation: process list, gantt chart,
the circular `ready_queue` array of capacity `MAX_PROCESSES` with
`front`/`rear` cursors (`-1` is the empty sentinel), and the `in_queue`
flag array of size `MAX_PROCESSES + 1` indexed by pid. -/
structure RRState where
  procs : List Process
  gantt : List GanttEntry
  ready_queue : List Nat
  front : Int
  rear : Int
  in_queue : List Bool
  current_time : Int
  completed_count : Nat
deriving Repr, DecidableEq

/-- Mirrors the three identical enqueue blocks of `run_round_robin`:
`if (front == -1) front = 0; rear = (rear + 1) % MAX_PROCESSES;
ready_queue[rear] = i; in_queue[pid] = true;`. -/
def rr_enqueue (st : RRState) (i : Nat) (pid : Int) : RRState :=
  let front' := if st.front = -1 then 0 else st.front
  let rear' := (st.rear + 1) % (MAX_PROCESSES : Int)
  { st with
    front := front'
    rear := rear'
    ready_queue := st.ready_queue.set (Int.toNat rear') i
    in_queue := st.in_queue.set (Int.toNat pid) true }

/-- One step of the arrival scan: enqueue process `i` when
`!procs[i].is_completed && procs[i].arrival_time <= current_time &&
!in_queue[procs[i].pid]`. -/
def rr_try_enqueue (st : RRState) (i : Nat) : RRState :=
  let p := st.procs.getD i default
  if p.is_completed = false ∧ p.arrival_time ≤ st.current_time ∧
      st.in_queue.getD p.pid.toNat false = false then
    rr_enqueue st i p.pid
  else st

/-- The arrival scan (`for i` over all processes), used both at the top of
the loop body and after the executed slice. -/
def rr_scan (st : RRState) : RRState :=
  (List.range st.procs.length).foldl rr_try_enqueue st

/-- One iteration of the Round-Robin `while (completed_count < process_count)`
body: scan for arrivals; if the queue is empty, idle one tick; otherwise
dequeue the head, run it for `min(remaining_time, time_quantum)`, record one
un-merged gantt slice, re-scan for arrivals, and either mark the job
completed or re-enqueue it. -/
def rr_body (time_quantum : Int) (st : RRState) : RRState :=
  let st1 := rr_scan st
  if st1.front = -1 then { st1 with current_time := st1.current_time + 1 }
  else
    let cur := st1.ready_queue.getD st1.front.toNat 0
    let st2 := { st1 with
      front := if st1.front = st1.rear then -1
               else (st1.front + 1) % (MAX_PROCESSES : Int)
      in_queue := st1.in_queue.set (Int.toNat (st1.procs.getD cur default).pid) false }
    let p := st2.procs.getD cur default
    let slice := if p.remaining_time < time_quantum then p.remaining_time
                 else time_quantum
    let t' := st2.current_time + slice
    let st3 := { st2 with
      gantt := st2.gantt ++ [⟨p.pid, st2.current_time, t'⟩]
      current_time := t'
      procs := st2.procs.set cur { p with remaining_time := p.remaining_time - slice } }
    let st4 := rr_scan st3
    let p' := st4.procs.getD cur default
    if p'.remaining_time = 0 then
      { st4 with
        procs := st4.procs.set cur
          { p' with
            is_completed := true
            completion_time := st4.current_time }
        completed_count := st4.completed_count + 1 }
    else rr_enqueue st4 cur p'.pid

/-- Fuelled Round-Robin loop. -/
def rr_loop (time_quantum : Int) (n : Nat) : Nat → RRState → Option RRState
  | 0, _ => none
  | fuel + 1, st =>
      if st.completed_count < n then rr_loop time_quantum n fuel (rr_body time_quantum st)
      else some st

/-- The initial Round-Robin state over a (sorted) working copy. -/
def rr_init (procs : List Process) : RRState :=
  ⟨procs, [], List.replicate MAX_PROCESSES 0, -1, -1,
   List.replicate (MAX_PROCESSES + 1) false, 0, 0⟩

/-- Mirrors `run_round_robin`: empty-set early return, quantum validation,
working copy bubble-sorted by `arrival_time`, then the dispatch loop. -/
def run_round_robin (jobs : List Process) (time_quantum : Int) (fuel : Nat) :
    Option (List Process × List GanttEntry) :=
  if jobs.length = 0 then none
  else if time_quantum ≤ 0 then none
  else
    match rr_loop time_quantum jobs.length fuel
        (rr_init (bubble_sort (copy_processes jobs))) with
    | none => none
    | some st => some (st.procs, st.gantt)

/-- Mirrors `calculate_metrics`: for each finished process, look up the first
registry entry with the same pid and derive
`turnaround_time = completion_time - arrival_time`,
`waiting_time = turnaround_time - burst_time` (burst taken from the registry
entry); a process with no registry match is left untouched. -/
def calculate_metrics (procs registry : List Process) : List Process :=
  procs.map (fun p =>
    match registry.find? (fun q => q.pid = p.pid) with
    | some q =>
        { p with
          turnaround_time := p.completion_time - p.arrival_time
          waiting_time := p.completion_time - p.arrival_time - q.burst_time }
    | none => p)

/-- A freshly registered process, as `add_process` stores it. -/
def mkProcess (pid arrival burst priority : Int) : Process :=
  ⟨pid, arrival, burst, priority, burst, 0, 0, 0, false⟩

/-! ## Concrete job sets used by the claims -/

/-- Round-Robin quantum example of the spec: jobs `{(1,0,5),(2,0,3)}`. -/
def jobsC1 : List Process := [mkProcess 1 0 5 0, mkProcess 2 0 3 0]

/-- Conservation counterexample input: a completion followed by an idle gap. -/
def jobsC2 : List Process := [mkProcess 1 0 2 0, mkProcess 2 5 1 0]

/-- Slice-closing counterexample input: job 1 completes at tick 3, the
processor idles until job 2 arrives at tick 6. -/
def jobsC3 : List Process := [mkProcess 1 0 3 0, mkProcess 2 6 2 0]

/-- Requeue counterexample input for Round-Robin with quantum 4. -/
def jobsC4 : List Process := [mkProcess 1 0 1 0, mkProcess 2 0 7 0]

/-- Metrics counterexample input for Round-Robin with quantum 5. -/
def jobsC5 : List Process := [mkProcess 1 0 1 0, mkProcess 2 0 10 0]

/-- Non-termination input for Round-Robin with quantum 1: 100 jobs, all
arriving at 0; job 1 has burst 2, the rest burst 1. -/
def jobsC6 : List Process :=
  (List.range 100).map (fun k => mkProcess (k + 1) 0 (if k = 0 then 2 else 1) 0)

/-- SJF preemption example of the spec: jobs `{(1,0,8),(2,1,4)}`. -/
def jobsC7 : List Process := [mkProcess 1 0 8 0, mkProcess 2 1 4 0]

/-! ## C1: the Round-Robin quantum example -/

/-- Claim C1 is false on the code: on jobs `{(1,0,5),(2,0,3)}` with quantum 2
the simulator produces the timeline `[(1,0,2),(2,2,4),(1,4,6),(1,6,7),(2,7,8)]`
(with completion times 1 -> 7, 2 -> 8), not the claimed
`[(1,0,2),(2,2,4),(1,4,6),(2,6,7),(1,7,8)]`: the post-slice arrival re-scan
re-enqueues the job that just ran (its `in_queue` flag was cleared at
dequeue), so pid 1 occupies two queue slots and runs twice in a row. -/
theorem rr_quantum_example_diverges :
    (run_round_robin jobsC1 2 50).map Prod.snd =
      some [⟨1, 0, 2⟩, ⟨2, 2, 4⟩, ⟨1, 4, 6⟩, ⟨1, 6, 7⟩, ⟨2, 7, 8⟩] ∧
    (run_round_robin jobsC1 2 50).map (fun r => r.1.map (fun p => (p.pid, p.completion_time))) =
      some [(1, 7), (2, 8)] ∧
    ([⟨1, 0, 2⟩, ⟨2, 2, 4⟩, ⟨1, 4, 6⟩, ⟨1, 6, 7⟩, ⟨2, 7, 8⟩] : List GanttEntry) ≠
      [⟨1, 0, 2⟩, ⟨2, 2, 4⟩, ⟨1, 4, 6⟩, ⟨2, 6, 7⟩, ⟨1, 7, 8⟩] := by
  refine ⟨by decide, by decide, by decide⟩

/-! ## C2: conservation of slice durations -/

/-- Claim C2 is false on the code: on jobs `{(1,0,2),(2,5,1)}` preemptive SJF
records the timeline `[(1,0,5),(2,5,6)]` whose durations sum to 6 while the
burst times sum to 3, and job 1 (completion_time 2) has its last slice
ending at 5: the idle gap after job 1's completion is absorbed into job 1's
slice because the open slice is only closed at the next selection. -/
theorem sjf_conservation_violated :
    (run_sjf_preemptive jobsC2 50).map Prod.snd = some [⟨1, 0, 5⟩, ⟨2, 5, 6⟩] ∧
    (run_sjf_preemptive jobsC2 50).map
        (fun r => r.1.map (fun p => (p.pid, p.completion_time))) = some [(1, 2), (2, 6)] ∧
    (([⟨1, 0, 5⟩, ⟨2, 5, 6⟩] : List GanttEntry).map
        (fun e => e.end_time - e.start_time)).sum = 6 ∧
    (jobsC2.map (fun p => p.burst_time)).sum = 3 ∧
    (6 : Int) ≠ 3 ∧ (5 : Int) ≠ 2 := by
  refine ⟨by decide, by decide, by decide, by decide, by decide, by decide⟩

/-! ## C3: slice closing at completion ticks -/

/-- Claim C3 is false on the code: on jobs `{(1,0,3),(2,6,2)}` preemptive SJF
completes job 1 at tick 3 and then idles until tick 6, but the recorded
timeline is `[(1,0,6),(2,6,8)]`: job 1's slice ends at 6 (the tick the next
job is selected), not at its completion tick 3, because the open slice's
`end_time` is only written inside the next `last_pid != current_pid` branch. -/
theorem sjf_slice_end_not_completion_tick :
    (run_sjf_preemptive jobsC3 50).map Prod.snd = some [⟨1, 0, 6⟩, ⟨2, 6, 8⟩] ∧
    (run_sjf_preemptive jobsC3 50).map
        (fun r => r.1.map (fun p => (p.pid, p.completion_time))) = some [(1, 3), (2, 8)] ∧
    (6 : Int) ≠ 3 := by
  refine ⟨by decide, by decide, by decide⟩

/-! ## C4: Round-Robin requeue ordering -/

/-- Claim C4 is false on the code: on jobs `{(1,0,1),(2,0,7)}` with quantum 4,
job 1 finishes at tick 1, yet it is re-enqueued by the post-slice arrival
scan (which runs before `is_completed` is set and sees `in_queue = false`),
and is later dispatched again, producing the zero-length slice `(1,5,5)`
whose completion bumps `completed_count` a second time and terminates the
loop while job 2 still has 3 remaining units.  The claim says a finished job
is never re-enqueued and an unfinished just-run job goes only to the tail. -/
theorem rr_requeue_order_violated :
    (run_round_robin jobsC4 4 50).map Prod.snd =
      some [⟨1, 0, 1⟩, ⟨2, 1, 5⟩, ⟨1, 5, 5⟩] ∧
    (run_round_robin jobsC4 4 50).map
        (fun r => r.1.map (fun p => (p.pid, p.is_completed, p.remaining_time))) =
      some [(1, true, 0), (2, false, 3)] := by
  refine ⟨by decide, by decide⟩

/-! ## C5: metric monotonicity -/

/-- Claim C5 is false on the code: on jobs `{(1,0,1),(2,0,10)}` with quantum 5
the Round-Robin loop terminates with job 2 never completed (a stale queue
entry of finished job 1 is dispatched as a zero-length slice and
double-counts in `completed_count`), so job 2's `completion_time` is never
written (it keeps its initial value 0, the value `reset_process_state`
establishes) and `calculate_metrics` derives `waiting_time = -10 < 0` and
`turnaround_time = 0 < burst_time = 10`. -/
theorem rr_negative_waiting_time :
    (run_round_robin jobsC5 5 50).map
        (fun r => (calculate_metrics r.1 jobsC5).map
          (fun p => (p.pid, p.waiting_time, p.turnaround_time, p.is_completed))) =
      some [(1, 5, 6, true), (2, -10, 0, false)] ∧
    ((-10 : Int) < 0) ∧ ((0 : Int) < 10) := by
  refine ⟨by decide, by decide, by decide⟩

/-! ## C7: the SJF preemption example -/

/-- Claim C7 holds: on jobs `{(1, arrival 0, burst 8), (2, arrival 1, burst 4)}`
preemptive SJF preempts job 1 at tick 1 and records exactly the timeline
`[(1,0,1),(2,1,5),(1,5,12)]` with completion times 12 for job 1 and 5 for
job 2. -/
theorem sjf_preemption_example :
    (run_sjf_preemptive jobsC7 50).map Prod.snd =
      some [⟨1, 0, 1⟩, ⟨2, 1, 5⟩, ⟨1, 5, 12⟩] ∧
    (run_sjf_preemptive jobsC7 50).map
        (fun r => r.1.map (fun p => (p.pid, p.completion_time))) =
      some [(1, 12), (2, 5)] := by
  refine ⟨by decide, by decide⟩

/-! ## C9: registration -/

/-- Claim C9 holds: `add_process` rejects (returning the registry completely
unchanged) exactly when the registry is full or `arrival < 0` or
`burst ≤ 0` or `priority < 0`; otherwise it appends a process carrying the
next sequential pid (with `remaining_time = burst`, not completed) and
increments `next_pid`. -/
theorem add_process_spec (r : Registry) (arrival burst priority : Int) :
    add_process r arrival burst priority =
      if MAX_PROCESSES ≤ r.processes.length ∨ arrival < 0 ∨ burst ≤ 0 ∨ priority < 0
      then (r, false)
      else ({ processes := r.processes ++
                [⟨r.next_pid, arrival, burst, priority, burst, 0, 0, 0, false⟩]
              next_pid := r.next_pid + 1 }, true) := by
  unfold add_process
  split_ifs <;> tauto

/-! ## Characterisation of the selection scan -/

/-- Total indexing into a process list (default element for out of range). -/
def pget (l : List Process) (i : Nat) : Process := l.getD i default

@[simp] theorem pget_cons_zero (p : Process) (l : List Process) : pget (p :: l) 0 = p := rfl

@[simp] theorem pget_cons_succ (p : Process) (l : List Process) (n : Nat) :
    pget (p :: l) (n + 1) = pget l n := rfl

/-- A `none` scan result means the accumulator was `none` and no scanned
process was eligible. -/
theorem select_go_none (key : Process → Int) (t : Int) :
    ∀ (l : List Process) (ofs : Nat) (acc : Option (Nat × Int)),
      select_go key t l ofs acc = none →
      acc = none ∧ ∀ d, d < l.length → ¬ elig t (pget l d) := by
  intro l
  induction l with
  | nil =>
      intro ofs acc h
      exact ⟨h, fun d hd => absurd hd (by simp)⟩
  | cons p rest ih =>
      intro ofs acc h
      simp only [select_go] at h
      obtain ⟨hacc', hrest⟩ := ih (ofs + 1) _ h
      by_cases he : elig t p
      · exfalso
        simp only [if_pos he] at hacc'
        cases acc with
        | none => exact Option.noConfusion hacc'
        | some pr =>
            cases pr with
            | mk a b => by_cases hk : key p < b <;> simp [hk] at hacc'
      · simp only [if_neg he] at hacc'
        refine ⟨hacc', ?_⟩
        intro d hd
        cases d with
        | zero => simpa using he
        | succ d' => exact hrest d' (by simpa using hd)

/-- The scan result never exceeds the accumulator's key value. -/
theorem select_go_acc_le (key : Process → Int) (t : Int) :
    ∀ (l : List Process) (ofs : Nat) (acc : Option (Nat × Int)) (s : Nat) (m : Int),
      select_go key t l ofs acc = some (s, m) →
      ∀ pr : Nat × Int, acc = some pr → m ≤ pr.2 := by
  intro l
  induction l with
  | nil =>
      intro ofs acc s m h pr hpr
      simp only [select_go] at h
      rw [hpr] at h
      cases h
      rfl
  | cons p rest ih =>
      intro ofs acc s m h pr hpr
      simp only [select_go] at h
      subst hpr
      by_cases he : elig t p
      · simp only [if_pos he] at h
        by_cases hk : key p < pr.2
        · have := ih (ofs + 1) _ s m (by simpa [hk] using h) (ofs, key p) rfl
          simp only at this
          omega
        · exact ih (ofs + 1) _ s m (by simpa [hk] using h) pr rfl
      · exact ih (ofs + 1) _ s m (by simpa [he] using h) pr rfl

/-- The scan result is a lower bound on the key of every eligible scanned
process. -/
theorem select_go_lb (key : Process → Int) (t : Int) :
    ∀ (l : List Process) (ofs : Nat) (acc : Option (Nat × Int)) (s : Nat) (m : Int),
      select_go key t l ofs acc = some (s, m) →
      ∀ d, d < l.length → elig t (pget l d) → m ≤ key (pget l d) := by
  intro l
  induction l with
  | nil => intro ofs acc s m _ d hd; exact absurd hd (by simp)
  | cons p rest ih =>
      intro ofs acc s m h d hd
      simp only [select_go] at h
      cases d with
      | zero =>
          intro he0
          simp only [pget_cons_zero] at he0
          simp only [pget_cons_zero]
          simp only [if_pos he0] at h
          cases acc with
          | none => exact select_go_acc_le key t rest (ofs + 1) _ s m h (ofs, key p) rfl
          | some pr =>
              cases pr with
              | mk j m0 =>
                  by_cases hk : key p < m0
                  · simp only [hk, if_true] at h
                    exact select_go_acc_le key t rest (ofs + 1) _ s m h (ofs, key p) rfl
                  · simp only [hk, if_false] at h
                    have hle := select_go_acc_le key t rest (ofs + 1) _ s m h (j, m0) rfl
                    simp only at hle
                    omega
      | succ d' =>
          intro he
          exact ih (ofs + 1) _ s m (by exact h) d' (by simpa using hd) (by simpa using he)

/-- Where the scan result comes from: either the accumulator survived, or it
is an eligible scanned process at absolute index `s`. -/
theorem select_go_src (key : Process → Int) (t : Int) :
    ∀ (l : List Process) (ofs : Nat) (acc : Option (Nat × Int)) (s : Nat) (m : Int),
      (∀ pr : Nat × Int, acc = some pr → pr.1 < ofs) →
      select_go key t l ofs acc = some (s, m) →
      acc = some (s, m) ∨
        (ofs ≤ s ∧ s - ofs < l.length ∧ elig t (pget l (s - ofs)) ∧
          m = key (pget l (s - ofs))) := by
  intro l
  induction l with
  | nil =>
      intro ofs acc s m _ h
      simp only [select_go] at h
      exact Or.inl h
  | cons p rest ih =>
      intro ofs acc s m hacc h
      simp only [select_go] at h
      by_cases he : elig t p
      · simp only [if_pos he] at h
        have step : ∀ acc' : Option (Nat × Int),
            (∀ pr : Nat × Int, acc' = some pr → pr.1 < ofs + 1) →
            select_go key t rest (ofs + 1) acc' = some (s, m) →
            acc' = some (s, m) ∨
              (ofs ≤ s ∧ s - ofs < (p :: rest).length ∧ elig t (pget (p :: rest) (s - ofs)) ∧
                m = key (pget (p :: rest) (s - ofs))) := by
          intro acc' hacc' h'
          rcases ih (ofs + 1) acc' s m hacc' h' with hL | ⟨h1, h2, h3, h4⟩
          · exact Or.inl hL
          · right
            have hshift : s - ofs = (s - (ofs + 1)) + 1 := by omega
            refine ⟨by omega, by simp only [List.length_cons]; omega, ?_, ?_⟩
            · rw [hshift, pget_cons_succ]; exact h3
            · rw [hshift, pget_cons_succ]; exact h4
        cases acc with
        | none =>
            have hacc' : ∀ pr : Nat × Int,
                (some (ofs, key p) : Option (Nat × Int)) = some pr → pr.1 < ofs + 1 := by
              intro pr hpr
              cases hpr
              simp
            rcases step (some (ofs, key p)) hacc' h with hL | hR
            · right
              have h1 : ofs = s ∧ key p = m := by
                have := Option.some.inj hL
                exact ⟨congrArg Prod.fst this, congrArg Prod.snd this⟩
              obtain ⟨hofs, hkey⟩ := h1
              subst hofs
              refine ⟨le_refl _, by simp, ?_, ?_⟩
              · simpa [Nat.sub_self] using he
              · simp [Nat.sub_self, hkey.symm]
            · exact Or.inr hR
        | some pr0 =>
            obtain ⟨j, m0⟩ := pr0
            by_cases hk : key p < m0
            · simp only [hk, if_true] at h
              have hacc' : ∀ pr : Nat × Int,
                  (some (ofs, key p) : Option (Nat × Int)) = some pr → pr.1 < ofs + 1 := by
                intro pr hpr
                cases hpr
                simp
              rcases step (some (ofs, key p)) hacc' h with hL | hR
              · right
                have h1 : ofs = s ∧ key p = m := by
                  have := Option.some.inj hL
                  exact ⟨congrArg Prod.fst this, congrArg Prod.snd this⟩
                obtain ⟨hofs, hkey⟩ := h1
                subst hofs
                refine ⟨le_refl _, by simp, ?_, ?_⟩
                · simpa [Nat.sub_self] using he
                · simp [Nat.sub_self, hkey.symm]
              · exact Or.inr hR
            · simp only [hk, if_false] at h
              have hacc' : ∀ pr : Nat × Int,
                  (some (j, m0) : Option (Nat × Int)) = some pr → pr.1 < ofs + 1 := by
                intro pr hpr
                have := hacc pr hpr
                omega
              rcases step (some (j, m0)) hacc' h with hL | hR
              · exact Or.inl hL
              · exact Or.inr hR
      · simp only [if_neg he] at h
        have hacc' : ∀ pr : Nat × Int, acc = some pr → pr.1 < ofs + 1 := by
          intro pr hpr
          have := hacc pr hpr
          omega
        rcases ih (ofs + 1) acc s m hacc' h with hL | ⟨h1, h2, h3, h4⟩
        · exact Or.inl hL
        · right
          have hshift : s - ofs = (s - (ofs + 1)) + 1 := by omega
          refine ⟨by omega, by simp only [List.length_cons]; omega, ?_, ?_⟩
          · rw [hshift, pget_cons_succ]; exact h3
          · rw [hshift, pget_cons_succ]; exact h4

/-- Strictness of the scan: the result key is strictly below the key of any
accumulator entry it replaced, and strictly below the key of every eligible
scanned process at an absolute index strictly before the selected one. -/
theorem select_go_strict (key : Process → Int) (t : Int) :
    ∀ (l : List Process) (ofs : Nat) (acc : Option (Nat × Int)) (s : Nat) (m : Int),
      (∀ pr : Nat × Int, acc = some pr → pr.1 < ofs) →
      select_go key t l ofs acc = some (s, m) →
      (∀ pr : Nat × Int, acc = some pr → pr.1 ≠ s → m < pr.2) ∧
      (∀ e, e < l.length → ofs + e < s → elig t (pget l e) → m < key (pget l e)) := by
  intro l
  induction l with
  | nil =>
      intro ofs acc s m _ h
      simp only [select_go] at h
      constructor
      · intro pr hpr hne
        rw [h] at hpr
        have := Option.some.inj hpr
        exact absurd (congrArg Prod.fst this).symm hne
      · intro e he
        exact absurd he (by simp)
  | cons p rest ih =>
      intro ofs acc s m hacc h
      simp only [select_go] at h
      by_cases he : elig t p
      · simp only [if_pos he] at h
        cases acc with
        | none =>
            have hacc' : ∀ pr : Nat × Int,
                (some (ofs, key p) : Option (Nat × Int)) = some pr → pr.1 < ofs + 1 := by
              intro pr hpr
              cases hpr
              simp
            obtain ⟨ihB, ihC⟩ := ih (ofs + 1) _ s m hacc' h
            have hsrc := select_go_src key t rest (ofs + 1) _ s m hacc' h
            constructor
            · intro pr hpr
              exact absurd hpr (by simp)
            · intro e helen hlt hel
              cases e with
              | zero =>
                  rcases hsrc with hL | hR
                  · have := congrArg Prod.fst (Option.some.inj hL)
                    simp only at this
                    omega
                  · have := ihB (ofs, key p) rfl (by omega)
                    simpa using this
              | succ e' =>
                  exact ihC e' (by simpa using helen) (by omega) (by simpa using hel)
        | some pr0 =>
            obtain ⟨j, m0⟩ := pr0
            by_cases hk : key p < m0
            · simp only [hk, if_true] at h
              have hacc' : ∀ pr : Nat × Int,
                  (some (ofs, key p) : Option (Nat × Int)) = some pr → pr.1 < ofs + 1 := by
                intro pr hpr
                cases hpr
                simp
              obtain ⟨ihB, ihC⟩ := ih (ofs + 1) _ s m hacc' h
              have hsrc := select_go_src key t rest (ofs + 1) _ s m hacc' h
              have hmkp : m ≤ key p := by
                rcases hsrc with hL | hR
                · have := congrArg Prod.snd (Option.some.inj hL)
                  simp only at this
                  omega
                · have := ihB (ofs, key p) rfl (by omega)
                  omega
              constructor
              · intro pr hpr hne
                cases hpr
                simp only
                omega
              · intro e helen hlt hel
                cases e with
                | zero =>
                    rcases hsrc with hL | hR
                    · have := congrArg Prod.fst (Option.some.inj hL)
                      simp only at this
                      omega
                    · have := ihB (ofs, key p) rfl (by omega)
                      simpa using this
                | succ e' =>
                    exact ihC e' (by simpa using helen) (by omega) (by simpa using hel)
            · simp only [hk, if_false] at h
              have hacc' : ∀ pr : Nat × Int,
                  (some (j, m0) : Option (Nat × Int)) = some pr → pr.1 < ofs + 1 := by
                intro pr hpr
                have := hacc pr hpr
                omega
              obtain ⟨ihB, ihC⟩ := ih (ofs + 1) _ s m hacc' h
              have hsrc := select_go_src key t rest (ofs + 1) _ s m hacc' h
              constructor
              · intro pr hpr hne
                cases hpr
                exact ihB (j, m0) rfl hne
              · intro e helen hlt hel
                cases e with
                | zero =>
                    have hjs : j ≠ s := by
                      have := hacc (j, m0) rfl
                      simp only at this
                      omega
                    have := ihB (j, m0) rfl hjs
                    simp only at this
                    simp only [pget_cons_zero] at hel
                    simp only [pget_cons_zero]
                    omega
                | succ e' =>
                    exact ihC e' (by simpa using helen) (by omega) (by simpa using hel)
      · simp only [if_neg he] at h
        have hacc' : ∀ pr : Nat × Int, acc = some pr → pr.1 < ofs + 1 := by
          intro pr hpr
          have := hacc pr hpr
          omega
        obtain ⟨ihB, ihC⟩ := ih (ofs + 1) acc s m hacc' h
        constructor
        · exact ihB
        · intro e helen hlt hel
          cases e with
          | zero => exact absurd (by simpa using hel) he
          | succ e' =>
              exact ihC e' (by simpa using helen) (by omega) (by simpa using hel)

/-- Full characterisation of an eligible selection: the selected index is in
range, eligible, carries the reported key, every eligible process strictly
before it has a strictly larger key, and every eligible process at all has
a key at least the reported one. -/
theorem select_idx_spec (key : Process → Int) (procs : List Process) (t : Int)
    (s : Nat) (m : Int) (h : select_idx key procs t = some (s, m)) :
    s < procs.length ∧ elig t (pget procs s) ∧ m = key (pget procs s) ∧
    (∀ e, e < s → elig t (pget procs e) → m < key (pget procs e)) ∧
    (∀ e, e < procs.length → elig t (pget procs e) → m ≤ key (pget procs e)) := by
  have hacc : ∀ pr : Nat × Int, (none : Option (Nat × Int)) = some pr → pr.1 < 0 := by
    intro pr hpr
    exact absurd hpr (by simp)
  have hsrc := select_go_src key t procs 0 none s m hacc h
  have hstrict := select_go_strict key t procs 0 none s m hacc h
  have hlb := select_go_lb key t procs 0 none s m h
  rcases hsrc with hL | ⟨_, h2, h3, h4⟩
  · exact absurd hL (by simp)
  · rw [Nat.sub_zero] at h2 h3 h4
    refine ⟨h2, h3, h4, ?_, fun e helen => hlb e helen⟩
    intro e hes hel
    exact hstrict.2 e (by omega) (by omega) hel

/-- A `none` selection means no process is eligible. -/
theorem select_idx_none_spec (key : Process → Int) (procs : List Process) (t : Int)
    (h : select_idx key procs t = none) :
    ∀ i, i < procs.length → ¬ elig t (pget procs i) :=
  (select_go_none key t procs 0 none h).2

/-! ## C8: the priority tie-break -/

/-- Claim C8 holds: in the preemptive priority scan, for two jobs with equal
`priority` and equal `arrival_time` that are both eligible (arrived and not
completed) at tick `t`, the job at the later position (which carries the
larger pid, since registration assigns pids in list order) is never the one
selected, so the two execute in ascending pid order. -/
theorem priority_tie_break_lower_pid (procs : List Process) (t : Int) (i j : Nat)
    (hij : i < j) (hjlen : j < procs.length)
    (hpid : (pget procs i).pid < (pget procs j).pid)
    (hprio : (pget procs i).priority = (pget procs j).priority)
    (harr : (pget procs i).arrival_time = (pget procs j).arrival_time)
    (heligi : elig t (pget procs i)) (heligj : elig t (pget procs j)) :
    (select_idx (fun p => p.priority) procs t).map Prod.fst ≠ some j := by
  intro hmap
  cases hsel : select_idx (fun p => p.priority) procs t with
  | none => rw [hsel] at hmap; exact absurd hmap (by simp)
  | some pr =>
      obtain ⟨s, m⟩ := pr
      rw [hsel] at hmap
      have hsj : s = j := by simpa using hmap
      subst hsj
      obtain ⟨_, _, hm, hstrict, _⟩ := select_idx_spec _ procs t _ m hsel
      have hi := hstrict i hij heligi
      simp only at hm hi
      omega

/-- Witness for C8: two jobs with equal priority 3 and equal arrival 0; the
selection at tick 0 never picks the second (higher-pid) job. -/
def procsC8 : List Process := [mkProcess 1 0 5 3, mkProcess 2 0 5 3]

/-- Claim C8 witness: concrete instantiation of the tie-break theorem. -/
theorem priority_tie_break_lower_pid_witness :
    (select_idx (fun p => p.priority) procsC8 0).map Prod.fst ≠ some 1 :=
  priority_tie_break_lower_pid procsC8 0 0 1 (by decide) (by decide) (by decide)
    (by decide) (by decide) (by decide) (by decide)

/-! ## C6: termination of the loops -/

/-- Unfolding of one fuelled Round-Robin loop iteration. -/
theorem rr_loop_succ (q : Int) (n : Nat) (fuel : Nat) (st : RRState) :
    rr_loop q n (fuel + 1) st =
      if st.completed_count < n then rr_loop q n fuel (rr_body q st) else some st := rfl

/-- An absorbing Round-Robin state: empty queue, loop counter still short of
`n`, and every process either completed or (spuriously) flagged as queued.
From such a state the loop idles forever: the arrival scans never enqueue
anything, so only `current_time` advances. -/
def RRAbsorbing (n : Nat) (st : RRState) : Prop :=
  st.front = -1 ∧ st.completed_count < n ∧
  ∀ p ∈ st.procs, p.is_completed = true ∨ st.in_queue.getD (Int.toNat p.pid) false = true

instance (n : Nat) (st : RRState) : Decidable (RRAbsorbing n st) := by
  unfold RRAbsorbing; infer_instance

/-- The arrival scan skips a process that is completed or flagged queued. -/
theorem rr_try_enqueue_id (st : RRState) (i : Nat)
    (h : (st.procs.getD i default).is_completed = true ∨
      st.in_queue.getD (Int.toNat (st.procs.getD i default).pid) false = true) :
    rr_try_enqueue st i = st := by
  have hc : ¬ ((st.procs.getD i default).is_completed = false ∧
      (st.procs.getD i default).arrival_time ≤ st.current_time ∧
      st.in_queue.getD (Int.toNat (st.procs.getD i default).pid) false = false) := by
    rintro ⟨h1, -, h3⟩
    rcases h with h | h
    · rw [h] at h1; exact Bool.noConfusion h1
    · rw [h] at h3; exact Bool.noConfusion h3
  simp only [rr_try_enqueue]
  rw [if_neg hc]

/-- The arrival scan is the identity when every process is completed or
flagged queued. -/
theorem rr_scan_id (st : RRState)
    (h : ∀ p ∈ st.procs, p.is_completed = true ∨
      st.in_queue.getD (Int.toNat p.pid) false = true) :
    rr_scan st = st := by
  unfold rr_scan
  have key : ∀ L : List Nat, (∀ i ∈ L, i < st.procs.length) →
      List.foldl rr_try_enqueue st L = st := by
    intro L
    induction L with
    | nil => intro _; rfl
    | cons a L ih =>
        intro hL
        have ha : a < st.procs.length := hL a (by simp)
        have hmem : st.procs.getD a default ∈ st.procs := by
          rw [List.getD_eq_getElem st.procs default ha]
          exact List.getElem_mem ha
        have hstep : rr_try_enqueue st a = st := rr_try_enqueue_id st a (h _ hmem)
        rw [List.foldl_cons, hstep]
        exact ih (fun i hi => hL i (by simp [hi]))
  exact key (List.range st.procs.length) (fun i hi => List.mem_range.mp hi)

/-- From an absorbing state, one loop body is a pure idle tick. -/
theorem rr_body_absorb (q : Int) (n : Nat) (st : RRState) (h : RRAbsorbing n st) :
    rr_body q st = { st with current_time := st.current_time + 1 } := by
  obtain ⟨hf, -, hq⟩ := h
  simp only [rr_body]
  rw [rr_scan_id st hq, if_pos hf]

/-- Idling preserves absorption. -/
theorem rr_absorb_succ (n : Nat) (st : RRState) (h : RRAbsorbing n st) :
    RRAbsorbing n { st with current_time := st.current_time + 1 } := by
  obtain ⟨h1, h2, h3⟩ := h
  exact ⟨h1, h2, h3⟩

/-- From an absorbing state the Round-Robin loop never terminates: every
fuel amount is exhausted. -/
theorem rr_loop_absorb (q : Int) (n : Nat) :
    ∀ (fuel : Nat) (st : RRState), RRAbsorbing n st → rr_loop q n fuel st = none := by
  intro fuel
  induction fuel with
  | zero => intro st _; rfl
  | succ f ih =>
      intro st h
      rw [rr_loop_succ, if_pos h.2.1, rr_body_absorb q n st h]
      exact ih _ (rr_absorb_succ n st h)

/-- Fuel monotonicity of failure: if the loop exhausts a larger fuel amount
it exhausts every smaller one as well. -/
theorem rr_loop_none_mono (q : Int) (n : Nat) :
    ∀ (f2 : Nat) (st : RRState), rr_loop q n f2 st = none →
      ∀ f1, f1 ≤ f2 → rr_loop q n f1 st = none := by
  intro f2
  induction f2 with
  | zero =>
      intro st h f1 hf
      have : f1 = 0 := by omega
      rw [this]
      exact h
  | succ f ih =>
      intro st h f1 hf
      rw [rr_loop_succ] at h
      by_cases hc : st.completed_count < n
      · rw [if_pos hc] at h
        cases f1 with
        | zero => rfl
        | succ g =>
            rw [rr_loop_succ, if_pos hc]
            exact ih (rr_body q st) h g (by omega)
      · rw [if_neg hc] at h
        exact Option.noConfusion h

/-- The Round-Robin state after five loop iterations on `jobsC6` with
quantum 1.  After these five dispatches (job 1 runs twice, then three stale
duplicate entries of job 1 are consumed), the queue reads empty while the
`in_queue` flags of jobs 2..100 are still set: their original queue entries
were destroyed when the circular buffer wrapped around and when `front` was
reset to 0 by an enqueue into a non-empty buffer. -/
def rrS5 : RRState :=
  rr_body 1 (rr_body 1 (rr_body 1 (rr_body 1 (rr_body 1
    (rr_init (bubble_sort (copy_processes jobsC6)))))))

set_option maxRecDepth 100000 in
/-- Five unfoldings of the Round-Robin loop on `jobsC6`. -/
theorem rr_loop_jobsC6_shift (fuel : Nat) :
    rr_loop 1 100 (fuel + 5) (rr_init (bubble_sort (copy_processes jobsC6))) =
      rr_loop 1 100 fuel rrS5 := rfl

set_option maxRecDepth 100000 in
/-- The state reached after five iterations is absorbing. -/
theorem rrS5_absorbing : RRAbsorbing 100 rrS5 := by decide

/-- Claim C6 is false on the code: the Round-Robin loop does not terminate
on the 100-job set `jobsC6` (all arrivals 0, job 1 burst 2, others burst 1)
with quantum 1, for any fuel.  The initial scan fills the circular ready
queue completely; re-enqueueing the just-run job twice then overwrites live
entries and corrupts `front`/`rear`, after which `completed_count` sticks
at 4 < 100 while the queue reads empty and jobs 2..100 remain flagged
`in_queue`, so the loop idles forever.  (A dispatched zero-length slice of
a stale entry also shows that a non-idle Round-Robin dispatch need not
decrease remaining work.) -/
theorem rr_termination_violated : ∀ fuel : Nat, run_round_robin jobsC6 1 fuel = none := by
  intro fuel
  have h5 : rr_loop 1 100 (fuel + 5) (rr_init (bubble_sort (copy_processes jobsC6))) = none := by
    rw [rr_loop_jobsC6_shift fuel]
    exact rr_loop_absorb 1 100 fuel rrS5 rrS5_absorbing
  have h : rr_loop 1 100 fuel (rr_init (bubble_sort (copy_processes jobsC6))) = none :=
    rr_loop_none_mono 1 100 (fuel + 5) _ h5 fuel (by omega)
  unfold run_round_robin
  rw [if_neg (by decide : ¬ jobsC6.length = 0), if_neg (by decide : ¬ (1 : Int) ≤ 0),
    (by decide : jobsC6.length = 100), h]

/-! ## C10: at most 2n slices in the preemptive policies -/

/-- Unfolding of one fuelled preemptive loop iteration. -/
theorem p_loop_succ (key : Process → Int) (n : Nat) (fuel : Nat) (st : PState) :
    p_loop key n (fuel + 1) st =
      if st.completed_count < n then p_loop key n fuel (p_body key st) else some st := rfl

/-- Number of completed processes of a working copy. -/
def ncomp (l : List Process) : Nat := l.countP (fun p => p.is_completed)

/-- Number of processes having arrived by time `t`. -/
def arrivedLE (t : Int) (l : List Process) : Nat :=
  l.countP (fun p => decide (p.arrival_time ≤ t))

theorem arrivedLE_mono (l : List Process) {t t' : Int} (h : t ≤ t') :
    arrivedLE t l ≤ arrivedLE t' l := by
  unfold arrivedLE
  refine List.countP_mono_left ?_
  intro p _ hp
  simp only [decide_eq_true_eq] at hp ⊢
  omega

theorem arrivedLE_le_length (t : Int) (l : List Process) : arrivedLE t l ≤ l.length :=
  List.countP_le_length _

theorem ncomp_le_length (l : List Process) : ncomp l ≤ l.length :=
  List.countP_le_length _

theorem length_set_last_end (g : List GanttEntry) (t : Int) :
    (set_last_end g t).length = g.length := by
  induction g with
  | nil => rfl
  | cons e rest ih =>
      cases rest with
      | nil => rfl
      | cons f rest' =>
          simp only [set_last_end, List.length_cons] at ih ⊢
          omega

theorem pget_set_self (l : List Process) (i : Nat) (a : Process) (hi : i < l.length) :
    pget (l.set i a) i = a := by
  unfold pget
  rw [List.getD_eq_getElem _ _ (by rw [List.length_set]; exact hi)]
  exact List.getElem_set_self _

theorem pget_set_ne (l : List Process) (i j : Nat) (a : Process) (hij : i ≠ j)
    (hj : j < l.length) :
    pget (l.set i a) j = pget l j := by
  unfold pget
  rw [List.getD_eq_getElem _ _ (by rw [List.length_set]; exact hj),
      List.getD_eq_getElem _ _ hj]
  exact List.getElem_set_of_ne hij a _

theorem countP_set_eq (f : Process → Bool) (l : List Process) (i : Nat) (a : Process)
    (hfa : f a = f (pget l i)) :
    ∀ hi : i < l.length, (l.set i a).countP f = l.countP f := by
  induction l generalizing i with
  | nil => intro hi; exact absurd hi (by simp)
  | cons p rest ih =>
      intro hi
      cases i with
      | zero =>
          simp only [List.set_cons_zero, List.countP_cons]
          simp only [pget_cons_zero] at hfa
          rw [hfa]
      | succ i' =>
          simp only [List.set_cons_succ, List.countP_cons]
          simp only [pget_cons_succ] at hfa
          rw [ih i' hfa (by simpa using hi)]

theorem countP_set_true (f : Process → Bool) (l : List Process) (i : Nat) (a : Process)
    (hold : f (pget l i) = false) (hnew : f a = true) :
    ∀ hi : i < l.length, (l.set i a).countP f = l.countP f + 1 := by
  induction l generalizing i with
  | nil => intro hi; exact absurd hi (by simp)
  | cons p rest ih =>
      intro hi
      cases i with
      | zero =>
          simp only [List.set_cons_zero, List.countP_cons]
          simp only [pget_cons_zero] at hold
          rw [hold, hnew]
          simp
      | succ i' =>
          simp only [List.set_cons_succ, List.countP_cons]
          simp only [pget_cons_succ] at hold
          rw [ih i' hold (by simpa using hi)]
          omega

theorem countP_succ_le (f g : Process → Bool) (l : List Process) (i : Nat)
    (himp : ∀ p ∈ l, f p = true → g p = true)
    (hgi : g (pget l i) = true) (hfi : f (pget l i) = false) :
    ∀ hi : i < l.length, l.countP f + 1 ≤ l.countP g := by
  induction l generalizing i with
  | nil => intro hi; exact absurd hi (by simp)
  | cons p rest ih =>
      intro hi
      have hmono : rest.countP f ≤ rest.countP g :=
        List.countP_mono_left (fun x hx => himp x (by simp [hx]))
      cases i with
      | zero =>
          simp only [pget_cons_zero] at hgi hfi
          have hc1 : List.countP f (p :: rest) = List.countP f rest := by
            rw [List.countP_cons, hfi]
            simp
          have hc2 : List.countP g (p :: rest) = List.countP g rest + 1 := by
            rw [List.countP_cons, hgi]
            simp
          rw [hc1, hc2]
          omega
      | succ i' =>
          simp only [pget_cons_succ] at hgi hfi
          have hrec := ih i' (fun x hx => himp x (by simp [hx])) hgi hfi (by simpa using hi)
          have hpf : (if f p = true then 1 else 0) ≤ (if g p = true then 1 else 0) := by
            by_cases hfp : f p = true
            · rw [if_pos hfp, if_pos (himp p (by simp) hfp)]
            · rw [if_neg hfp]
              exact Nat.zero_le _
          rw [List.countP_cons, List.countP_cons]
          omega

theorem countP_lt_length (f : Process → Bool) (l : List Process) (i : Nat)
    (hfi : f (pget l i) = false) :
    ∀ hi : i < l.length, l.countP f < l.length := by
  intro hi
  have := countP_succ_le f (fun _ => true) l i (fun _ _ _ => rfl) rfl hfi hi
  have hlen : l.countP (fun _ => true) = l.length := by simp
  omega

theorem countP_pos_of (f : Process → Bool) (l : List Process) (i : Nat)
    (hfi : f (pget l i) = true) :
    ∀ hi : i < l.length, 1 ≤ l.countP f := by
  intro hi
  refine List.countP_pos_iff.mpr ⟨pget l i, ?_, hfi⟩
  rw [pget, List.getD_eq_getElem l default hi]
  exact List.getElem_mem hi

/-- The loop invariant of the preemptive policies that yields the 2n slice
bound.  Besides bookkeeping (lengths, the completion counter, pids being
those of registered jobs, hence never the sentinel `-1`), it carries the
charging argument: when no job is mid-slice (`last_pid = -1`) the chart
holds at most `arrived + completed - 1` entries (one unit of slack pays for
the next slice opening), and while a job is mid-slice the chart holds at
most `arrived-before-now + completed` entries and the running job is a
strict scan minimum among the jobs arrived before the current tick. -/
def PInv (key : Process → Int) (n : Nat) (st : PState) : Prop :=
  st.procs.length = n ∧
  st.completed_count = ncomp st.procs ∧
  (∀ i, i < st.procs.length → (pget st.procs i).pid ≠ -1) ∧
  (st.last_pid = -1 →
    st.gantt.length = 0 ∨
      st.gantt.length + 1 ≤ arrivedLE st.current_time st.procs + ncomp st.procs) ∧
  (st.last_pid ≠ -1 →
    st.gantt.length ≤ arrivedLE (st.current_time - 1) st.procs + ncomp st.procs ∧
    ∃ k, k < st.procs.length ∧ (pget st.procs k).pid = st.last_pid ∧
      (pget st.procs k).is_completed = false ∧
      (pget st.procs k).arrival_time ≤ st.current_time - 1 ∧
      ∀ i, i < st.procs.length → i ≠ k →
        (pget st.procs i).arrival_time ≤ st.current_time - 1 →
        (pget st.procs i).is_completed = false →
        ((i < k → key (pget st.procs k) < key (pget st.procs i)) ∧
         (k < i → key (pget st.procs k) ≤ key (pget st.procs i))))

/-- The idle step of the preemptive body. -/
theorem p_body_none (key : Process → Int) (st : PState)
    (hsel : select_idx key st.procs st.current_time = none) :
    p_body key st = { st with current_time := st.current_time + 1 } := by
  unfold p_body
  rw [hsel]

/-- The dispatch step of the preemptive body, written out. -/
theorem p_body_some (key : Process → Int) (st : PState) (idx : Nat) (m : Int)
    (hsel : select_idx key st.procs st.current_time = some (idx, m)) :
    p_body key st =
      if (pget st.procs idx).remaining_time - 1 = 0 then
        { procs := st.procs.set idx
            { pget st.procs idx with
              remaining_time := (pget st.procs idx).remaining_time - 1
              is_completed := true
              completion_time := st.current_time + 1 }
          gantt := if st.last_pid ≠ (pget st.procs idx).pid then
              set_last_end st.gantt st.current_time ++
                [⟨(pget st.procs idx).pid, st.current_time, st.current_time⟩]
            else st.gantt
          current_time := st.current_time + 1
          completed_count := st.completed_count + 1
          last_pid := -1 }
      else
        { procs := st.procs.set idx
            { pget st.procs idx with
              remaining_time := (pget st.procs idx).remaining_time - 1 }
          gantt := if st.last_pid ≠ (pget st.procs idx).pid then
              set_last_end st.gantt st.current_time ++
                [⟨(pget st.procs idx).pid, st.current_time, st.current_time⟩]
            else st.gantt
          current_time := st.current_time + 1
          completed_count := st.completed_count
          last_pid := (pget st.procs idx).pid } := by
  unfold p_body
  rw [hsel]
  rfl

/-- Constructor form of the invariant. -/
theorem PInv_mk (key : Process → Int) (n : Nat) (procs : List Process)
    (gantt : List GanttEntry) (t : Int) (cnt : Nat) (last : Int)
    (h1 : procs.length = n)
    (h2 : cnt = ncomp procs)
    (h3 : ∀ i, i < procs.length → (pget procs i).pid ≠ -1)
    (h4 : last = -1 →
      gantt.length = 0 ∨ gantt.length + 1 ≤ arrivedLE t procs + ncomp procs)
    (h5 : last ≠ -1 →
      gantt.length ≤ arrivedLE (t - 1) procs + ncomp procs ∧
      ∃ k, k < procs.length ∧ (pget procs k).pid = last ∧
        (pget procs k).is_completed = false ∧
        (pget procs k).arrival_time ≤ t - 1 ∧
        ∀ i, i < procs.length → i ≠ k →
          (pget procs i).arrival_time ≤ t - 1 →
          (pget procs i).is_completed = false →
          ((i < k → key (pget procs k) < key (pget procs i)) ∧
           (k < i → key (pget procs k) ≤ key (pget procs i)))) :
    PInv key n ⟨procs, gantt, t, cnt, last⟩ :=
  ⟨h1, h2, h3, h4, h5⟩

/-- One preemptive loop iteration preserves the invariant, for any selection
key that does not increase when `remaining_time` is decremented (true both
for `remaining_time` itself and for the static `priority`). -/
theorem p_body_inv (key : Process → Int)
    (hkey : ∀ p : Process, key { p with remaining_time := p.remaining_time - 1 } ≤ key p)
    (n : Nat) (st : PState) (hinv : PInv key n st) : PInv key n (p_body key st) := by
  obtain ⟨hlen, hcnt, hpids, hP2, hP1⟩ := hinv
  cases hsel : select_idx key st.procs st.current_time with
  | none =>
      rw [p_body_none key st hsel]
      have hnoelig := select_idx_none_spec key st.procs st.current_time hsel
      have hlast : st.last_pid = -1 := by
        by_contra hne
        obtain ⟨-, k, hk, -, hkc, hka, -⟩ := hP1 hne
        exact hnoelig k hk ⟨by omega, hkc⟩
      refine ⟨hlen, hcnt, hpids, ?_, ?_⟩
      · intro _
        rcases hP2 hlast with h0 | hb
        · exact Or.inl h0
        · right
          have hmono := arrivedLE_mono st.procs
            (show st.current_time ≤ st.current_time + 1 by omega)
          show st.gantt.length + 1 ≤
            arrivedLE (st.current_time + 1) st.procs + ncomp st.procs
          omega
      · intro hne
        exact absurd hlast hne
  | some pr =>
      obtain ⟨idx, m⟩ := pr
      obtain ⟨hidx, helig, hm, hstrict, hlb⟩ :=
        select_idx_spec key st.procs st.current_time idx m hsel
      obtain ⟨harr_idx, hcomp_idx⟩ := helig
      have ht1 : st.current_time + 1 - 1 = st.current_time := by omega
      have hmono1 := arrivedLE_mono st.procs
        (show st.current_time ≤ st.current_time + 1 by omega)
      have hmono2 := arrivedLE_mono st.procs
        (show st.current_time - 1 ≤ st.current_time by omega)
      have haLE1 : 1 ≤ arrivedLE st.current_time st.procs := by
        unfold arrivedLE
        exact countP_pos_of _ st.procs idx
          (by simp only [decide_eq_true_eq]; exact harr_idx) hidx
      have hGpush : (set_last_end st.gantt st.current_time ++
          [(⟨(pget st.procs idx).pid, st.current_time, st.current_time⟩ :
            GanttEntry)]).length = st.gantt.length + 1 := by
        rw [List.length_append, length_set_last_end]
        rfl
      have hcharge : st.last_pid ≠ (pget st.procs idx).pid → st.last_pid ≠ -1 →
          st.gantt.length + 1 ≤ arrivedLE st.current_time st.procs + ncomp st.procs := by
        intro hpidne hlastne
        obtain ⟨hbound, k, hk, hkpid, hkc, hka, hJ⟩ := hP1 hlastne
        have hik : idx ≠ k := by
          intro heq
          rw [heq] at hpidne
          exact hpidne hkpid.symm
        have hnew : ¬ (pget st.procs idx).arrival_time ≤ st.current_time - 1 := by
          intro hold
          have hJidx := hJ idx hidx hik hold hcomp_idx
          have heligk : elig st.current_time (pget st.procs k) := ⟨by omega, hkc⟩
          rcases Nat.lt_trichotomy idx k with hlt | heq | hgt
          · have h1 := hJidx.1 hlt
            have h2 := hlb k hk heligk
            omega
          · exact hik heq
          · have h1 := hJidx.2 hgt
            have h2 := hstrict k hgt heligk
            omega
        have hsucc := countP_succ_le
          (fun p => decide (p.arrival_time ≤ st.current_time - 1))
          (fun p => decide (p.arrival_time ≤ st.current_time)) st.procs idx
          (fun p _ hp => by simp only [decide_eq_true_eq] at hp ⊢; omega)
          (by simp only [decide_eq_true_eq]; exact harr_idx)
          (by rw [decide_eq_false_iff_not]; exact hnew)
          hidx
        unfold arrivedLE at hbound ⊢
        omega
      rw [p_body_some key st idx m hsel]
      by_cases hrem : (pget st.procs idx).remaining_time - 1 = 0
      · -- the selected job completes this tick
        rw [if_pos hrem]
        have hncomp' : ncomp (st.procs.set idx
            { pget st.procs idx with
              remaining_time := (pget st.procs idx).remaining_time - 1
              is_completed := true
              completion_time := st.current_time + 1 }) = ncomp st.procs + 1 :=
          countP_set_true _ st.procs idx _ hcomp_idx rfl hidx
        have harr' : ∀ τ : Int, arrivedLE τ (st.procs.set idx
            { pget st.procs idx with
              remaining_time := (pget st.procs idx).remaining_time - 1
              is_completed := true
              completion_time := st.current_time + 1 }) = arrivedLE τ st.procs :=
          fun τ => countP_set_eq _ st.procs idx _ rfl hidx
        by_cases hpid : st.last_pid ≠ (pget st.procs idx).pid
        · rw [if_pos hpid]
          refine PInv_mk key n _ _ _ _ _ ?_ ?_ ?_ ?_ ?_
          · rw [List.length_set]
            exact hlen
          · rw [hncomp']
            omega
          · intro i hi
            rw [List.length_set] at hi
            by_cases hiidx : i = idx
            · subst hiidx
              rw [pget_set_self _ _ _ hidx]
              exact hpids i hi
            · rw [pget_set_ne _ _ _ _ (Ne.symm hiidx) hi]
              exact hpids i hi
          · intro _
            right
            rw [hGpush, harr', hncomp']
            by_cases hlastm : st.last_pid = -1
            · rcases hP2 hlastm with h0 | hb
              · omega
              · omega
            · have := hcharge hpid hlastm
              omega
          · intro hne
            exact absurd rfl hne
        · rw [if_neg hpid]
          refine PInv_mk key n _ _ _ _ _ ?_ ?_ ?_ ?_ ?_
          · rw [List.length_set]
            exact hlen
          · rw [hncomp']
            omega
          · intro i hi
            rw [List.length_set] at hi
            by_cases hiidx : i = idx
            · subst hiidx
              rw [pget_set_self _ _ _ hidx]
              exact hpids i hi
            · rw [pget_set_ne _ _ _ _ (Ne.symm hiidx) hi]
              exact hpids i hi
          · intro _
            right
            rw [harr', hncomp']
            by_cases hlastm : st.last_pid = -1
            · rcases hP2 hlastm with h0 | hb
              · omega
              · omega
            · obtain ⟨hbound, -⟩ := hP1 hlastm
              omega
          · intro hne
            exact absurd rfl hne
      · -- the selected job continues
        rw [if_neg hrem]
        have hncomp2 : ncomp (st.procs.set idx
            { pget st.procs idx with
              remaining_time := (pget st.procs idx).remaining_time - 1 }) =
            ncomp st.procs :=
          countP_set_eq _ st.procs idx _ rfl hidx
        have harr2 : ∀ τ : Int, arrivedLE τ (st.procs.set idx
            { pget st.procs idx with
              remaining_time := (pget st.procs idx).remaining_time - 1 }) =
            arrivedLE τ st.procs :=
          fun τ => countP_set_eq _ st.procs idx _ rfl hidx
        by_cases hpid : st.last_pid ≠ (pget st.procs idx).pid
        · rw [if_pos hpid]
          refine PInv_mk key n _ _ _ _ _ ?_ ?_ ?_ ?_ ?_
          · rw [List.length_set]
            exact hlen
          · rw [hncomp2]
            exact hcnt
          · intro i hi
            rw [List.length_set] at hi
            by_cases hiidx : i = idx
            · subst hiidx
              rw [pget_set_self _ _ _ hidx]
              exact hpids i hi
            · rw [pget_set_ne _ _ _ _ (Ne.symm hiidx) hi]
              exact hpids i hi
          · intro hc
            exact absurd hc (hpids idx hidx)
          · intro _
            constructor
            · rw [hGpush, ht1, harr2, hncomp2]
              by_cases hlastm : st.last_pid = -1
              · rcases hP2 hlastm with h0 | hb
                · omega
                · omega
              · exact hcharge hpid hlastm
            · refine ⟨idx, ?_, ?_, ?_, ?_, ?_⟩
              · rw [List.length_set]
                exact hidx
              · rw [pget_set_self _ _ _ hidx]
              · rw [pget_set_self _ _ _ hidx]
                exact hcomp_idx
              · rw [pget_set_self _ _ _ hidx, ht1]
                exact harr_idx
              · intro i hi hik hiarr hicomp
                rw [List.length_set] at hi
                rw [pget_set_ne _ _ _ _ (Ne.symm hik) hi, ht1] at hiarr
                rw [pget_set_ne _ _ _ _ (Ne.symm hik) hi] at hicomp
                rw [pget_set_self _ _ _ hidx, pget_set_ne _ _ _ _ (Ne.symm hik) hi]
                have heligi : elig st.current_time (pget st.procs i) := ⟨hiarr, hicomp⟩
                have hkdec : key { pget st.procs idx with
                    remaining_time := (pget st.procs idx).remaining_time - 1 } ≤
                    key (pget st.procs idx) := hkey (pget st.procs idx)
                constructor
                · intro hlt
                  have := hstrict i hlt heligi
                  omega
                · intro hgt
                  have := hlb i hi heligi
                  omega
        · rw [if_neg hpid]
          refine PInv_mk key n _ _ _ _ _ ?_ ?_ ?_ ?_ ?_
          · rw [List.length_set]
            exact hlen
          · rw [hncomp2]
            exact hcnt
          · intro i hi
            rw [List.length_set] at hi
            by_cases hiidx : i = idx
            · subst hiidx
              rw [pget_set_self _ _ _ hidx]
              exact hpids i hi
            · rw [pget_set_ne _ _ _ _ (Ne.symm hiidx) hi]
              exact hpids i hi
          · intro hc
            exact absurd hc (hpids idx hidx)
          · intro _
            constructor
            · rw [ht1, harr2, hncomp2]
              have hlasteq : st.last_pid = (pget st.procs idx).pid := not_ne_iff.mp hpid
              have hlastm : st.last_pid ≠ -1 := by
                rw [hlasteq]
                exact hpids idx hidx
              obtain ⟨hbound, -⟩ := hP1 hlastm
              omega
            · refine ⟨idx, ?_, ?_, ?_, ?_, ?_⟩
              · rw [List.length_set]
                exact hidx
              · rw [pget_set_self _ _ _ hidx]
              · rw [pget_set_self _ _ _ hidx]
                exact hcomp_idx
              · rw [pget_set_self _ _ _ hidx, ht1]
                exact harr_idx
              · intro i hi hik hiarr hicomp
                rw [List.length_set] at hi
                rw [pget_set_ne _ _ _ _ (Ne.symm hik) hi, ht1] at hiarr
                rw [pget_set_ne _ _ _ _ (Ne.symm hik) hi] at hicomp
                rw [pget_set_self _ _ _ hidx, pget_set_ne _ _ _ _ (Ne.symm hik) hi]
                have heligi : elig st.current_time (pget st.procs i) := ⟨hiarr, hicomp⟩
                have hkdec : key { pget st.procs idx with
                    remaining_time := (pget st.procs idx).remaining_time - 1 } ≤
                    key (pget st.procs idx) := hkey (pget st.procs idx)
                constructor
                · intro hlt
                  have := hstrict i hlt heligi
                  omega
                · intro hgt
                  have := hlb i hi heligi
                  omega

/-- The fuelled preemptive loop preserves the invariant, and on a normal
exit the completion counter has reached `n`. -/
theorem p_loop_inv (key : Process → Int)
    (hkey : ∀ p : Process, key { p with remaining_time := p.remaining_time - 1 } ≤ key p)
    (n : Nat) :
    ∀ (fuel : Nat) (st st' : PState), PInv key n st →
      p_loop key n fuel st = some st' →
      PInv key n st' ∧ ¬ st'.completed_count < n := by
  intro fuel
  induction fuel with
  | zero => intro st st' _ h; exact Option.noConfusion h
  | succ f ih =>
      intro st st' hinv h
      rw [p_loop_succ] at h
      by_cases hc : st.completed_count < n
      · rw [if_pos hc] at h
        exact ih _ st' (p_body_inv key hkey n st hinv) h
      · rw [if_neg hc] at h
        obtain rfl := Option.some.inj h
        exact ⟨hinv, hc⟩

/-- The initial state of a preemptive run satisfies the invariant, provided
no registered job carries the `-1` pid sentinel (registration assigns pids
starting at 1, so this always holds for registered job sets). -/
theorem PInv_init (key : Process → Int) (jobs : List Process)
    (hpids : ∀ p ∈ jobs, p.pid ≠ -1) :
    PInv key jobs.length ⟨copy_processes jobs, [], 0, 0, -1⟩ := by
  refine PInv_mk key jobs.length _ _ _ _ _ ?_ ?_ ?_ ?_ ?_
  · rw [copy_processes, List.length_map]
  · show 0 = ncomp (copy_processes jobs)
    unfold ncomp copy_processes
    rw [List.countP_map]
    symm
    simp [Function.comp]
  · intro i hi
    rw [copy_processes] at hi ⊢
    rw [List.length_map] at hi
    unfold pget
    rw [List.getD_eq_getElem _ _ (by rw [List.length_map]; exact hi), List.getElem_map]
    have hmem : jobs[i] ∈ jobs := List.getElem_mem hi
    exact hpids jobs[i] hmem
  · intro _
    exact Or.inl rfl
  · intro hne
    exact absurd rfl hne

/-- On loop exit the chart holds at most `2n` entries: the exit state has
`last_pid = -1` (some job's completion ended the loop), all `n` jobs are
completed, at most `n` have arrived, and the slack form of the invariant
bounds the chart length by `arrived + completed - 1 < 2n`. -/
theorem p_loop_gantt_le (key : Process → Int)
    (hkey : ∀ p : Process, key { p with remaining_time := p.remaining_time - 1 } ≤ key p)
    (n : Nat) (fuel : Nat) (st st' : PState)
    (hinv : PInv key n st) (h : p_loop key n fuel st = some st') :
    st'.gantt.length ≤ 2 * n := by
  obtain ⟨⟨hlen, hcnt, hpids, hP2, hP1⟩, hexit⟩ := p_loop_inv key hkey n fuel st st' hinv h
  have hnle : ncomp st'.procs ≤ n := by
    rw [← hlen]
    exact ncomp_le_length st'.procs
  have hale : arrivedLE st'.current_time st'.procs ≤ n := by
    rw [← hlen]
    exact arrivedLE_le_length _ _
  by_cases hlast : st'.last_pid = -1
  · rcases hP2 hlast with h0 | hb <;> omega
  · obtain ⟨-, k, hk, -, hkc, -, -⟩ := hP1 hlast
    have hcountlt := countP_lt_length (fun p => p.is_completed) st'.procs k hkc hk
    unfold ncomp at hcnt
    omega

/-- Any successful preemptive run records at most `2n` slices. -/
theorem run_preemptive_gantt_le (key : Process → Int)
    (hkey : ∀ p : Process, key { p with remaining_time := p.remaining_time - 1 } ≤ key p)
    (jobs : List Process) (hpids : ∀ p ∈ jobs, p.pid ≠ -1) (fuel : Nat)
    (procs : List Process) (gantt : List GanttEntry)
    (h : run_preemptive key jobs fuel = some (procs, gantt)) :
    gantt.length ≤ 2 * jobs.length := by
  unfold run_preemptive at h
  by_cases hz : jobs.length = 0
  · rw [if_pos hz] at h
    exact Option.noConfusion h
  · rw [if_neg hz] at h
    cases hloop : p_loop key jobs.length fuel ⟨copy_processes jobs, [], 0, 0, -1⟩ with
    | none =>
        rw [hloop] at h
        exact Option.noConfusion h
    | some st =>
        rw [hloop] at h
        have hbound := p_loop_gantt_le key hkey jobs.length fuel _ st
          (PInv_init key jobs hpids) hloop
        have hg : gantt = set_last_end st.gantt st.current_time :=
          (congrArg Prod.snd (Option.some.inj h)).symm
        rw [hg, length_set_last_end]
        exact hbound

/-- Claim C10 holds: for any set of `n` registered jobs (registration
assigns pids starting at 1, so no pid equals the `-1` sentinel), a
preemptive SJF or preemptive priority run that terminates records at most
`2n` timeline slices — the selected pid changes only at an arrival (at most
one preemption per arriving job, because the running job's key never rises
relative to the other eligible jobs' keys) or at a completion — and hence
every write into the slice buffer of capacity `10 * MAX_PROCESSES` is in
bounds whenever `n ≤ MAX_PROCESSES`. -/
theorem preemptive_gantt_bound (jobs : List Process)
    (hpids : ∀ p ∈ jobs, p.pid ≠ -1) (fuel : Nat) :
    (∀ r : List Process × List GanttEntry,
        run_sjf_preemptive jobs fuel = some r → r.2.length ≤ 2 * jobs.length) ∧
    (∀ r : List Process × List GanttEntry,
        run_priority_preemptive jobs fuel = some r → r.2.length ≤ 2 * jobs.length) := by
  constructor
  · rintro ⟨procs, gantt⟩ h
    exact run_preemptive_gantt_le _
      (fun p => by show p.remaining_time - 1 ≤ p.remaining_time; omega)
      jobs hpids fuel procs gantt h
  · rintro ⟨procs, gantt⟩ h
    exact run_preemptive_gantt_le _ (fun p => le_refl _) jobs hpids fuel procs gantt h

/-- Claim C10 witness: the SJF example run of two jobs records 3 ≤ 4 slices. -/
theorem preemptive_gantt_bound_witness :
    ([(⟨1, 0, 1⟩ : GanttEntry), ⟨2, 1, 5⟩, ⟨1, 5, 12⟩] : List GanttEntry).length ≤
      2 * jobsC7.length :=
  (preemptive_gantt_bound jobsC7 (by decide) 50).1
    ([⟨1, 0, 8, 0, 0, 12, 0, 0, true⟩, ⟨2, 1, 4, 0, 0, 5, 0, 0, true⟩],
     [⟨1, 0, 1⟩, ⟨2, 1, 5⟩, ⟨1, 5, 12⟩]) (by decide)
